import Mathlib

/-!
Verification of the tight-binding engine of `pyextern/pythtb/pythtb.py`.

The embedding translates the numeric core of the source file into Lean:
machine floats become real numbers `ℝ`, complex floats become `ℂ`, numpy
arrays become functions out of `Fin n` or lists, and code that raises an
exception becomes a function into `Except`.  Every definition below is
translated from the source; the line numbers in the doc comments refer to
`pythtb.py`.
-/

noncomputable section

namespace PythTB

open scoped ComplexConjugate

/-- Tolerance `1.0E-6` used by the lattice validation in `tb_model.__init__`. -/
def latTol : ℝ := 1 / 1000000

/-- Tolerance `1.0E-9` used by the hermiticity check in `tb_model._sol_ham`. -/
def hermTol : ℝ := 1 / 1000000000

/-- Data stored by `tb_model.__init__` (pythtb.py lines 31-59): a 3×3 lattice
matrix, `N` orbital positions in reduced coordinates, and the three parallel
hopping-table lists `deg_ws` (degeneracies), `Rvec_list` (integer lattice
translations) and `Hmat_list` (per-shell lists of matrix elements
`(i, j, amplitude)`), plus the spin multiplicity `nspin`. -/
structure tb_model (N : ℕ) where
  lat : Matrix (Fin 3) (Fin 3) ℝ
  orb : Fin N → Fin 3 → ℝ
  deg_ws : List ℕ
  Rvec_list : List (Fin 3 → ℤ)
  Hmat_list : List (List (Fin N × Fin N × ℂ))
  nspin : ℕ

/-- Errors surfaced by the engine: `configError` stands for the generic
`Exception` raised by the input validation (the spec's `ConfigurationError`),
`numericalError` for the non-hermitian-Hamiltonian `Exception` (the spec's
`NumericalInconsistencyError`), and `divByZero` for the unguarded
`ZeroDivisionError`/`ValueError` reachable inside `k_path`. -/
inductive EngineError where
  | configError : EngineError
  | numericalError : EngineError
  | divByZero : EngineError
deriving DecidableEq

/-- Validation performed by `tb_model.__init__` (pythtb.py lines 31-59).
The shape checks on `lat` (3×3) and `orb` (rank 2, row width 3) are enforced
by the Lean types; the remaining value checks are, in source order:
`|det lat| < 1e-6` raises, `det lat < 0` raises, and `nspin ∉ {1,2}` raises.
On success the model record is produced. -/
def mk_tb_model {N : ℕ} (lat : Matrix (Fin 3) (Fin 3) ℝ) (orb : Fin N → Fin 3 → ℝ)
    (deg_ws : List ℕ) (Rvec_list : List (Fin 3 → ℤ))
    (Hmat_list : List (List (Fin N × Fin N × ℂ))) (nspin : ℕ) :
    Except EngineError (tb_model N) :=
  if |lat.det| < latTol then .error .configError
  else if lat.det < 0 then .error .configError
  else if ¬ (nspin = 1 ∨ nspin = 2) then .error .configError
  else .ok ⟨lat, orb, deg_ws, Rvec_list, Hmat_list, nspin⟩

/-- Dot product `kpnt.dot(rv)` of two reduced-coordinate 3-vectors
(pythtb.py line 79). -/
def hopDot (k rv : Fin 3 → ℝ) : ℝ := ∑ a, k a * rv a

/-- Phase factor `np.exp((2.0j)*np.pi*kpnt.dot(rv))` (pythtb.py line 79). -/
def hopPhase (k rv : Fin 3 → ℝ) : ℂ :=
  Complex.exp (2 * Complex.I * (Real.pi : ℂ) * (hopDot k rv : ℝ))

/-- In-place accumulation `ham[i,j] += v` (pythtb.py line 81): only the
`(i, j)` entry of the matrix changes. -/
def addAt {N : ℕ} (H : Matrix (Fin N) (Fin N) ℂ) (i j : Fin N) (v : ℂ) :
    Matrix (Fin N) (Fin N) ℂ :=
  Matrix.of fun i2 j2 => if i2 = i ∧ j2 = j then H i2 j2 + v else H i2 j2

/-- Bloch Hamiltonian assembly `tb_model._gen_ham` (pythtb.py lines 61-82):
starting from the zero matrix, loop over
`zip(self.deg_ws, self.Rvec_list, self.Hmat_list)` and, for each matrix
element `(i, j, amp)` of a shell, accumulate
`amp * exp(2j*pi*k.dot(-orb[i]+orb[j]+R)) / deg` into `ham[i,j]`.
The `k_input is None` guard and the scalar-to-vector promotion are enforced
by the Lean type of `k`. -/
def gen_ham {N : ℕ} (m : tb_model N) (k : Fin 3 → ℝ) : Matrix (Fin N) (Fin N) ℂ :=
  (m.deg_ws.zip (m.Rvec_list.zip m.Hmat_list)).foldl
    (fun ham s => s.2.2.foldl
      (fun ham e =>
        addAt ham e.1 e.2.1
          (e.2.2 * (hopPhase k (fun a => -m.orb e.1 a + m.orb e.2.1 a + (s.2.1 a : ℝ)) /
            (s.1 : ℂ))))
      ham)
    0

/-- Flattened view of the hopping table: one record
`((i, j, amplitude), R, deg)` per matrix element, in the traversal order of
`_gen_ham`'s two nested loops. -/
def flatTable {N : ℕ} (m : tb_model N) : List ((Fin N × Fin N × ℂ) × (Fin 3 → ℤ) × ℕ) :=
  (m.deg_ws.zip (m.Rvec_list.zip m.Hmat_list)).flatMap fun s =>
    s.2.2.map fun e => (e, s.2.1, s.1)

/-- Displacement `rv = -orb[i] + orb[j] + R` of a flattened hopping record
(pythtb.py line 77). -/
def rvec {N : ℕ} (m : tb_model N) (x : (Fin N × Fin N × ℂ) × (Fin 3 → ℤ) × ℕ) :
    Fin 3 → ℝ :=
  fun a => -m.orb x.1.1 a + m.orb x.1.2.1 a + (x.2.1 a : ℝ)

/-- Contribution of one flattened hopping record to the `(i, j)` entry of the
Bloch Hamiltonian: `amp * phase / deg` if the record targets `(i, j)`,
zero otherwise. -/
def contribC {N : ℕ} (m : tb_model N) (k : Fin 3 → ℝ) (i j : Fin N)
    (x : (Fin N × Fin N × ℂ) × (Fin 3 → ℤ) × ℕ) : ℂ :=
  if x.1.1 = i ∧ x.1.2.1 = j then x.1.2.2 * (hopPhase k (rvec m x) / (x.2.2 : ℂ)) else 0

lemma addAt_apply {N : ℕ} (H : Matrix (Fin N) (Fin N) ℂ) (i j i2 j2 : Fin N) (v : ℂ) :
    addAt H i j v i2 j2 = if i2 = i ∧ j2 = j then H i2 j2 + v else H i2 j2 := rfl

/-- Accumulating a list of single-entry updates into a matrix yields, at each
entry, the old value plus the sum of the updates that target that entry. -/
lemma foldl_addAt_apply {N : ℕ} {E : Type} (p : E → Fin N × Fin N) (v : E → ℂ)
    (l : List E) (H0 : Matrix (Fin N) (Fin N) ℂ) (i j : Fin N) :
    (l.foldl (fun H e => addAt H (p e).1 (p e).2 (v e)) H0) i j
      = H0 i j + (l.map fun e => if (p e).1 = i ∧ (p e).2 = j then v e else 0).sum := by
  induction l generalizing H0 with
  | nil => simp
  | cons e l ih =>
    simp only [List.foldl_cons, List.map_cons, List.sum_cons, ih, addAt_apply]
    by_cases h : i = (p e).1 ∧ j = (p e).2
    · rw [if_pos h, if_pos ⟨h.1.symm, h.2.symm⟩]
      ring
    · rw [if_neg h, if_neg fun hc => h ⟨hc.1.symm, hc.2.symm⟩]
      ring

/-- The `(i, j)` entry of the assembled Bloch Hamiltonian is the sum of the
contributions of all flattened hopping records. -/
lemma gen_ham_apply_eq_flat {N : ℕ} (m : tb_model N) (k : Fin 3 → ℝ) (i j : Fin N) :
    gen_ham m k i j = ((flatTable m).map (contribC m k i j)).sum := by
  have main : ∀ (l : List (ℕ × (Fin 3 → ℤ) × List (Fin N × Fin N × ℂ)))
      (H0 : Matrix (Fin N) (Fin N) ℂ),
      (l.foldl
        (fun ham s => s.2.2.foldl
          (fun ham e =>
            addAt ham e.1 e.2.1
              (e.2.2 * (hopPhase k (fun a => -m.orb e.1 a + m.orb e.2.1 a + (s.2.1 a : ℝ)) /
                (s.1 : ℂ))))
          ham)
        H0) i j
      = H0 i j + ((l.flatMap fun s => s.2.2.map fun e => (e, s.2.1, s.1)).map
          (contribC m k i j)).sum := by
    intro l
    induction l with
    | nil => intro H0; simp
    | cons s l ih =>
      intro H0
      have hinner := foldl_addAt_apply (N := N) (fun e => (e.1, e.2.1))
        (fun e =>
          e.2.2 * (hopPhase k (fun a => -m.orb e.1 a + m.orb e.2.1 a + (s.2.1 a : ℝ)) /
            (s.1 : ℂ)))
        s.2.2 H0 i j
      simp only [List.foldl_cons, List.flatMap_cons, List.map_append, List.sum_append, ih,
        hinner, List.map_map]
      rw [add_assoc]
      congr 2
  have := main (m.deg_ws.zip (m.Rvec_list.zip m.Hmat_list)) 0
  simpa [gen_ham, flatTable] using this

/-- Summing a function with an `if` guard over a list equals summing the
unguarded function over the filtered list. -/
lemma sum_map_ite_eq_filter {E : Type} (p : E → Prop) [DecidablePred p] (f : E → ℂ)
    (l : List E) :
    (l.map fun e => if p e then f e else 0).sum = ((l.filter fun e => decide (p e)).map f).sum := by
  induction l with
  | nil => simp
  | cons e l ih =>
    by_cases h : p e
    · simp [List.filter_cons, h, ih]
    · simp [List.filter_cons, h, ih]

/-- A sum over a `flatMap` is the sum of the per-block sums. -/
lemma sum_map_flatMap {A B : Type} (g : A → List B) (f : B → ℂ) (l : List A) :
    ((l.flatMap g).map f).sum = (l.map fun s => ((g s).map f).sum).sum := by
  induction l with
  | nil => simp
  | cons s l ih => simp [List.flatMap_cons, ih]

/-- C1.  The `(i, j)` entry of `build(k)` equals the sum, over all shells
`(deg, R, elements)` of the zipped hopping table and over the matrix elements
`(i, j, amplitude)` of each shell that target `(i, j)`, of
`amplitude * exp(2πi k·(orb[j] - orb[i] + R)) / deg`; entries that no record
targets receive the empty sum `0`. -/
theorem gen_ham_entry_eq_shell_sums {N : ℕ} (m : tb_model N) (k : Fin 3 → ℝ) (i j : Fin N) :
    gen_ham m k i j =
      ((m.deg_ws.zip (m.Rvec_list.zip m.Hmat_list)).map fun s =>
        (((s.2.2.filter fun e => decide (e.1 = i ∧ e.2.1 = j)).map fun e =>
          e.2.2 * hopPhase k (fun a => m.orb j a - m.orb i a + (s.2.1 a : ℝ)) /
            (s.1 : ℂ)).sum)).sum := by
  rw [gen_ham_apply_eq_flat, flatTable, sum_map_flatMap]
  congr 1
  apply List.map_congr_left
  intro s _
  rw [List.map_map]
  have : ∀ e ∈ s.2.2, (contribC m k i j ∘ fun e => (e, s.2.1, s.1)) e
      = if e.1 = i ∧ e.2.1 = j then
          e.2.2 * hopPhase k (fun a => m.orb j a - m.orb i a + (s.2.1 a : ℝ)) / (s.1 : ℂ)
        else 0 := by
    intro e _
    simp only [Function.comp_apply, contribC, rvec]
    by_cases h : e.1 = i ∧ e.2.1 = j
    · rw [if_pos h, if_pos h, mul_div_assoc]
      obtain ⟨h1, h2⟩ := h
      subst h1; subst h2
      have harg : rvec m (e, s.2.1, s.1)
          = fun a => m.orb e.2.1 a - m.orb e.1 a + (s.2.1 a : ℝ) := by
        funext a
        simp only [rvec]
        ring
      rw [harg]
    · rw [if_neg h, if_neg h]
  rw [List.map_congr_left this, sum_map_ite_eq_filter]

/-- Hermitian-conjugate partner of a flattened hopping record: swap the two
orbital indices, negate the translation and conjugate the amplitude, keeping
the degeneracy. -/
def conjFlip {N : ℕ} (x : (Fin N × Fin N × ℂ) × (Fin 3 → ℤ) × ℕ) :
    (Fin N × Fin N × ℂ) × (Fin 3 → ℤ) × ℕ :=
  ((x.1.2.1, x.1.1, conj x.1.2.2), (fun a => -(x.2.1 a)), x.2.2)

lemma hopDot_neg (k rv : Fin 3 → ℝ) : hopDot k (fun a => -(rv a)) = -(hopDot k rv) := by
  simp [hopDot, mul_neg]

lemma hopPhase_conj (k rv : Fin 3 → ℝ) :
    conj (hopPhase k rv) = hopPhase k (fun a => -(rv a)) := by
  simp only [hopPhase]
  rw [← Complex.exp_conj, hopDot_neg]
  congr 1
  simp only [map_mul, Complex.conj_I, Complex.conj_ofReal, map_ofNat]
  push_cast
  ring

lemma rvec_conjFlip {N : ℕ} (m : tb_model N) (x : (Fin N × Fin N × ℂ) × (Fin 3 → ℤ) × ℕ) :
    rvec m (conjFlip x) = fun a => -(rvec m x a) := by
  funext a
  simp only [rvec, conjFlip]
  push_cast
  ring

lemma contribC_conjFlip {N : ℕ} (m : tb_model N) (k : Fin 3 → ℝ) (i j : Fin N)
    (x : (Fin N × Fin N × ℂ) × (Fin 3 → ℤ) × ℕ) :
    contribC m k i j (conjFlip x) = conj (contribC m k j i x) := by
  have hcomp1 : (conjFlip x).1.1 = x.1.2.1 := rfl
  have hcomp2 : (conjFlip x).1.2.1 = x.1.1 := rfl
  have hamp : (conjFlip x).1.2.2 = conj x.1.2.2 := rfl
  have hdeg : (conjFlip x).2.2 = x.2.2 := rfl
  simp only [contribC, hcomp1, hcomp2, hamp, hdeg, rvec_conjFlip]
  by_cases h : x.1.1 = j ∧ x.1.2.1 = i
  · rw [if_pos ⟨h.2, h.1⟩, if_pos h, map_mul, map_div₀, ← hopPhase_conj, map_natCast]
  · rw [if_neg (fun hc => h ⟨hc.2, hc.1⟩), if_neg h, map_zero]

/-- C2.  If the flattened hopping table is invariant (as a multiset) under the
conjugate-transpose pairing — every record `(i, j, amp)` at translation `R`
and degeneracy `deg` is matched by the record `(j, i, conj amp)` at `-R` with
the same `deg` — then the assembled Bloch Hamiltonian is exactly Hermitian at
every real k-vector (in particular Hermitian within the `1e-9` tolerance used
by `_sol_ham`). -/
theorem gen_ham_hermitian_of_paired {N : ℕ} (m : tb_model N)
    (hpair : ((flatTable m).map conjFlip).Perm (flatTable m)) (k : Fin 3 → ℝ) :
    (gen_ham m k).conjTranspose = gen_ham m k := by
  ext i j
  rw [Matrix.conjTranspose_apply, gen_ham_apply_eq_flat m k j i, gen_ham_apply_eq_flat m k i j,
    ← (hpair.map (contribC m k i j)).sum_eq, List.map_map]
  have hfun : contribC m k i j ∘ conjFlip = fun x => conj (contribC m k j i x) := by
    funext x
    rw [Function.comp_apply, contribC_conjFlip]
  rw [hfun]
  have hsum := map_list_sum (starRingEnd ℂ) ((flatTable m).map (contribC m k j i))
  rw [List.map_map] at hsum
  rw [show (star ((flatTable m).map (contribC m k j i)).sum : ℂ)
    = (starRingEnd ℂ) ((flatTable m).map (contribC m k j i)).sum from rfl]
  exact hsum

/-- Single-orbital model with one on-site record, self-paired under the
conjugate-transpose pairing; used as a concrete valid model. -/
def pairedModel : tb_model 1 :=
  ⟨1, fun _ _ => 0, [1], [fun _ => 0], [[(0, 0, (1 : ℂ))]], 1⟩

lemma flatTable_pairedModel :
    flatTable pairedModel = [((0, 0, (1 : ℂ)), (fun _ => (0 : ℤ)), 1)] := rfl

lemma pairedModel_pairing :
    ((flatTable pairedModel).map conjFlip).Perm (flatTable pairedModel) := by
  have h : (flatTable pairedModel).map conjFlip = flatTable pairedModel := by
    rw [flatTable_pairedModel]
    simp [conjFlip]
  rw [h]

/-- Witness for C2: the pairing hypothesis holds for `pairedModel` and its
Bloch Hamiltonian at the origin is Hermitian. -/
theorem gen_ham_hermitian_of_paired_witness :
    ((flatTable pairedModel).map conjFlip).Perm (flatTable pairedModel) ∧
      (gen_ham pairedModel (fun _ => 0)).conjTranspose = gen_ham pairedModel (fun _ => 0) :=
  ⟨pairedModel_pairing,
    gen_ham_hermitian_of_paired pairedModel pairedModel_pairing (fun _ => 0)⟩

/-- Two-orbital model with the second orbital at reduced position
`[1/2, 0, 0]` and a Hermitian pair of hops inside the home cell; a valid
model on which reciprocal periodicity fails. -/
def offsetModel : tb_model 2 :=
  ⟨1, ![![0, 0, 0], ![1/2, 0, 0]], [1], [fun _ => 0], [[(0, 1, (1 : ℂ)), (1, 0, (1 : ℂ))]], 1⟩

lemma offsetModel_entry (k : Fin 3 → ℝ) :
    gen_ham offsetModel k 0 1 = hopPhase k ![1/2, 0, 0] := by
  rw [gen_ham_apply_eq_flat]
  have hft : flatTable offsetModel =
      [((0, 1, (1 : ℂ)), (fun _ => (0 : ℤ)), 1), ((1, 0, (1 : ℂ)), (fun _ => (0 : ℤ)), 1)] := rfl
  rw [hft]
  simp [contribC]
  congr 1
  funext a
  fin_cases a <;> simp [rvec, offsetModel]

/-- Counterexample to C3: for the valid model `offsetModel`, adding the integer
vector `G = [1,0,0]` to `k = 0` changes the assembled Hamiltonian: the `(0,1)`
entry flips from `1` to `-1`, a difference of magnitude `2`, far beyond any
floating tolerance. -/
theorem gen_ham_periodicity_counterexample :
    gen_ham offsetModel (fun a => (0 : ℝ) + ((![1, 0, 0] : Fin 3 → ℤ) a : ℝ)) 0 1 = -1 ∧
      gen_ham offsetModel (fun _ => (0 : ℝ)) 0 1 = 1 ∧
      Complex.abs (gen_ham offsetModel (fun a => (0 : ℝ) + ((![1, 0, 0] : Fin 3 → ℤ) a : ℝ)) 0 1 -
        gen_ham offsetModel (fun _ => (0 : ℝ)) 0 1) = 2 := by
  have h1 : gen_ham offsetModel (fun a => (0 : ℝ) + ((![1, 0, 0] : Fin 3 → ℤ) a : ℝ)) 0 1 = -1 := by
    rw [offsetModel_entry, hopPhase]
    have hdot : hopDot (fun a => (0 : ℝ) + ((![1, 0, 0] : Fin 3 → ℤ) a : ℝ)) ![1/2, 0, 0]
        = 1/2 := by
      simp [hopDot, Fin.sum_univ_three]
    rw [hdot]
    have harg : 2 * Complex.I * (Real.pi : ℂ) * ((1/2 : ℝ) : ℂ) = (Real.pi : ℂ) * Complex.I := by
      push_cast
      ring
    rw [harg, Complex.exp_pi_mul_I]
  have h2 : gen_ham offsetModel (fun _ => (0 : ℝ)) 0 1 = 1 := by
    rw [offsetModel_entry, hopPhase]
    have hdot : hopDot (fun _ => (0 : ℝ)) ![1/2, 0, 0] = 0 := by
      simp [hopDot]
    rw [hdot]
    simp
  refine ⟨h1, h2, ?_⟩
  rw [h1, h2]
  norm_num

/-- C3 (amended).  For a model whose orbital reduced coordinates are all
integers (for instance all orbitals at the origin), the Bloch Hamiltonian is
periodic in k: shifting k by any integer vector G leaves it unchanged. -/
theorem gen_ham_periodic_of_integer_orbitals {N : ℕ} (m : tb_model N)
    (horb : ∀ (i : Fin N) (a : Fin 3), ∃ z : ℤ, m.orb i a = z) (k : Fin 3 → ℝ)
    (G : Fin 3 → ℤ) :
    gen_ham m (fun a => k a + (G a : ℝ)) = gen_ham m k := by
  ext i j
  rw [gen_ham_apply_eq_flat, gen_ham_apply_eq_flat]
  congr 1
  apply List.map_congr_left
  intro x _
  have hz : ∀ a, ∃ z : ℤ, rvec m x a = z := by
    intro a
    obtain ⟨z1, hz1⟩ := horb x.1.1 a
    obtain ⟨z2, hz2⟩ := horb x.1.2.1 a
    exact ⟨-z1 + z2 + x.2.1 a, by simp [rvec, hz1, hz2]⟩
  choose z hzeq using hz
  have hphase : hopPhase (fun a => k a + (G a : ℝ)) (rvec m x) = hopPhase k (rvec m x) := by
    have hdot : hopDot (fun a => k a + (G a : ℝ)) (rvec m x)
        = hopDot k (rvec m x) + ((∑ a, G a * z a : ℤ) : ℝ) := by
      simp only [hopDot, add_mul, Finset.sum_add_distrib]
      congr 1
      push_cast
      refine Finset.sum_congr rfl fun a _ => ?_
      rw [hzeq a]
    rw [hopPhase, hopPhase, hdot, Complex.ofReal_add, mul_add, Complex.exp_add]
    have hint : Complex.exp (2 * Complex.I * (Real.pi : ℂ) *
        ((((∑ a, G a * z a : ℤ) : ℝ)) : ℂ)) = 1 := by
      rw [← Complex.exp_int_mul_two_pi_mul_I (∑ a, G a * z a)]
      congr 1
      push_cast
      ring
    rw [hint, mul_one]
  simp only [contribC, hphase]

/-- Witness for C3 (amended): `pairedModel` has integer orbital coordinates and
its Bloch Hamiltonian is unchanged by the shift `G = (1,1,1)` at `k = 0`. -/
theorem gen_ham_periodic_of_integer_orbitals_witness :
    (∀ (i : Fin 1) (a : Fin 3), ∃ z : ℤ, pairedModel.orb i a = z) ∧
      gen_ham pairedModel (fun a => (fun _ => (0 : ℝ)) a + ((fun _ => (1 : ℤ)) a : ℝ))
        = gen_ham pairedModel (fun _ => (0 : ℝ)) := by
  have horb : ∀ (i : Fin 1) (a : Fin 3), ∃ z : ℤ, pairedModel.orb i a = z := by
    intro i a
    exact ⟨0, by simp [pairedModel]⟩
  exact ⟨horb,
    gen_ham_periodic_of_integer_orbitals pairedModel horb (fun _ => 0) (fun _ => 1)⟩

/-- Lexicographic (real part, then imaginary part) strict order on complex
numbers: the ordering numpy uses when comparing and maximising complex
arrays, as in `np.max(ham-ham.T.conj())>1.0E-9` (pythtb.py line 87). -/
def cLt (z w : ℂ) : Prop := z.re < w.re ∨ (z.re = w.re ∧ z.im < w.im)

instance cLt_dec (z w : ℂ) : Decidable (cLt z w) :=
  inferInstanceAs (Decidable (z.re < w.re ∨ (z.re = w.re ∧ z.im < w.im)))

/-- Binary maximum in numpy's lexicographic complex order. -/
def cmax (z w : ℂ) : ℂ := if cLt z w then w else z

/-- Maximum entry of a (nonempty) complex list in numpy's lexicographic
order, that is `np.max` applied to a complex array. -/
def npMax (l : List ℂ) : ℂ := l.foldl cmax (l.headD 0)

/-- All entries of a square complex matrix, row-major. -/
def matEntries {N : ℕ} (H : Matrix (Fin N) (Fin N) ℂ) : List ℂ :=
  (List.finRange N).flatMap fun i => (List.finRange N).map fun j => H i j

/-- Raise condition of `_sol_ham` (pythtb.py line 87): the code computes
`np.max(ham-ham.T.conj())` — with no absolute value — and compares it with
`1.0E-9` in numpy's lexicographic complex order. -/
def hermRaise {N : ℕ} (H : Matrix (Fin N) (Fin N) ℂ) : Prop :=
  cLt ((hermTol : ℝ) : ℂ) (npMax (matEntries (H - H.conjTranspose)))

instance hermRaise_dec {N : ℕ} (H : Matrix (Fin N) (Fin N) ℂ) : Decidable (hermRaise H) :=
  inferInstanceAs (Decidable (cLt _ _))

/-- Sorted eigenvalue/eigenvector pairs: `_nicefy_eig` (pythtb.py lines
336-346) takes the real parts of the eigenvalues (`eval.real`), computes the
sorting permutation (`argsort`) and applies it to both arrays
(`eval[args]`, `eig[args]`); applying one permutation to both parallel arrays
is modelled as sorting the zipped list of pairs by eigenvalue. -/
def nicefy_pairs {N : ℕ} (eval : List ℂ) (eig : List (Fin N → ℂ)) :
    List (ℝ × (Fin N → ℂ)) :=
  ((eval.map Complex.re).zip eig).insertionSort (fun p q => p.1 ≤ q.1)

/-- Result of `_nicefy_eig` on eigenvalues and eigenvectors. -/
def nicefy_eig {N : ℕ} (eval : List ℂ) (eig : List (Fin N → ℂ)) :
    List ℝ × List (Fin N → ℂ) :=
  ((nicefy_pairs eval eig).map Prod.fst, (nicefy_pairs eval eig).map Prod.snd)

/-- Result of `_nicefy_eig` when only eigenvalues are passed (the
`eig is None` branch): real parts, sorted ascending. -/
def nicefy_vals (eval : List ℂ) : List ℝ :=
  (eval.map Complex.re).insertionSort (· ≤ ·)

/-- Eigenvalue branch of `tb_model._sol_ham` (pythtb.py lines 84-94): check
hermiticity, then sort the eigenvalue list produced by the external
`np.linalg.eigvalsh` backend (passed here as the argument `eval`). -/
def sol_ham_vals {N : ℕ} (H : Matrix (Fin N) (Fin N) ℂ) (eval : List ℂ) :
    Except EngineError (List ℝ) :=
  if hermRaise H then .error .numericalError else .ok (nicefy_vals eval)

/-- Eigenvector branch of `tb_model._sol_ham` (pythtb.py lines 84-100): check
hermiticity, then sort the eigenpairs produced by the external
`np.linalg.eigh` backend (passed here as `eval`, `eig`). -/
def sol_ham {N : ℕ} (H : Matrix (Fin N) (Fin N) ℂ) (eval : List ℂ)
    (eig : List (Fin N → ℂ)) : Except EngineError (List ℝ × List (Fin N → ℂ)) :=
  if hermRaise H then .error .numericalError else .ok (nicefy_eig eval eig)

/-- Non-Hermitian 1×1 matrix `[[i]]` on which the hermiticity check is
blind: `H - H.conjTranspose = [[2i]]` is purely imaginary. -/
def badH : Matrix (Fin 1) (Fin 1) ℂ := Matrix.of fun _ _ => Complex.I

/-- C4 (failure of the claim, evaluated at the failing input `H = [[i]]`).
The deviation `H - H.conjTranspose` has absolute value `2`, far above the
`1e-9` tolerance, so by the claim `solve` must fail; but the code's check
compares `np.max(H - H.conjTranspose) = 2i` — without absolute value — with
`1e-9` in numpy's lexicographic order, does not raise, and returns a
result. -/
theorem sol_ham_check_misses_nonhermitian :
    Complex.abs ((badH - badH.conjTranspose) 0 0) = 2 ∧ hermTol < 2 ∧
      ¬ hermRaise badH ∧ sol_ham_vals badH [Complex.I] = .ok [0] := by
  have hD : (badH - badH.conjTranspose) 0 0 = 2 * Complex.I := by
    simp [badH, Matrix.sub_apply, Matrix.conjTranspose_apply, Complex.conj_I]
    ring
  have habs : Complex.abs ((badH - badH.conjTranspose) 0 0) = 2 := by
    rw [hD]
    simp [map_mul]
  have hent : matEntries (badH - badH.conjTranspose) = [2 * Complex.I] := by
    simp only [matEntries]
    rw [show List.finRange 1 = [0] from rfl]
    simp only [List.flatMap_cons, List.flatMap_nil, List.map_cons, List.map_nil, List.append_nil]
    rw [hD]
  have hmax : npMax (matEntries (badH - badH.conjTranspose)) = 2 * Complex.I := by
    rw [hent]
    show cmax ((2 * Complex.I)) (2 * Complex.I) = 2 * Complex.I
    unfold cmax
    split <;> rfl
  have hnr : ¬ hermRaise badH := by
    rw [hermRaise, hmax]
    rintro (h | ⟨h, -⟩) <;> rw [hermTol] at h <;>
      simp [Complex.ofReal_re, Complex.mul_re, Complex.I_re, Complex.I_im] at h <;> linarith
  refine ⟨habs, by rw [hermTol]; norm_num, hnr, ?_⟩
  rw [sol_ham_vals, if_neg hnr]
  have : nicefy_vals [Complex.I] = [0] := by
    rw [nicefy_vals]
    simp [List.insertionSort]
  rw [this]

/-- Eigenvalue in the usual linear-algebra sense; used to state the contract
of the external `numpy.linalg` eigensolver backend (an external collaborator
of the engine, spec §6 and §9). -/
def IsEigenvalue {N : ℕ} (H : Matrix (Fin N) (Fin N) ℂ) (z : ℂ) : Prop :=
  ∃ v : Fin N → ℂ, v ≠ 0 ∧ H.mulVec v = z • v

/-- One-orbital 1D chain of C5: identity lattice, single orbital at the
origin, one shell `R = [1,0,0]` with `deg = 1` and element `(0,0,t)` plus the
partner shell `R = [-1,0,0]` with `deg = 1` and element `(0,0,conj t)`. -/
def chainModel (t : ℂ) : tb_model 1 :=
  ⟨1, fun _ _ => 0, [1, 1], [![1, 0, 0], ![-1, 0, 0]], [[(0, 0, t)], [(0, 0, conj t)]], 1⟩

lemma chainModel_entry (t : ℂ) (k : ℝ) :
    gen_ham (chainModel t) ![k, 0, 0] 0 0
      = t * Complex.exp (2 * Complex.I * (Real.pi : ℂ) * (k : ℂ))
        + conj t * Complex.exp (-(2 * Complex.I * (Real.pi : ℂ) * (k : ℂ))) := by
  rw [gen_ham_apply_eq_flat]
  have hft : flatTable (chainModel t) =
      [((0, 0, t), ![1, 0, 0], 1), ((0, 0, conj t), ![-1, 0, 0], 1)] := rfl
  rw [hft]
  simp only [List.map_cons, List.map_nil, List.sum_cons, List.sum_nil, contribC]
  have hd1 : hopDot ![k, 0, 0] (rvec (chainModel t) ((0, 0, t), ![1, 0, 0], 1)) = k := by
    simp [hopDot, rvec, chainModel, Fin.sum_univ_three]
  have hd2 : hopDot ![k, 0, 0] (rvec (chainModel t) ((0, 0, conj t), ![-1, 0, 0], 1)) = -k := by
    simp [hopDot, rvec, chainModel, Fin.sum_univ_three]
  rw [hopPhase, hopPhase, hd1, hd2]
  norm_num

/-- Counterexample to C5: for the complex amplitude `t = i` at `k = 1/4` the
assembled 1×1 Hamiltonian entry is `-2`, while the claimed formula
`2 Re(t) cos(2πk)` evaluates to `0`. -/
theorem chain_model_counterexample :
    gen_ham (chainModel Complex.I) ![(1/4 : ℝ), 0, 0] 0 0 = -2 ∧
      ((2 * Complex.I.re * Real.cos (2 * Real.pi * (1/4)) : ℝ) : ℂ) = 0 ∧
      gen_ham (chainModel Complex.I) ![(1/4 : ℝ), 0, 0] 0 0 ≠
        ((2 * Complex.I.re * Real.cos (2 * Real.pi * (1/4)) : ℝ) : ℂ) := by
  have h1 : Complex.exp (2 * Complex.I * (Real.pi : ℂ) * (((1/4 : ℝ)) : ℂ)) = Complex.I := by
    have harg : 2 * Complex.I * (Real.pi : ℂ) * (((1/4 : ℝ)) : ℂ)
        = ((Real.pi / 2 : ℝ) : ℂ) * Complex.I := by
      push_cast
      ring
    rw [harg, Complex.exp_mul_I (x := ((Real.pi / 2 : ℝ) : ℂ)), ← Complex.ofReal_cos,
      ← Complex.ofReal_sin, Real.cos_pi_div_two, Real.sin_pi_div_two]
    simp
  have h2 : Complex.exp (-(2 * Complex.I * (Real.pi : ℂ) * (((1/4 : ℝ)) : ℂ))) = -Complex.I := by
    have harg : -(2 * Complex.I * (Real.pi : ℂ) * (((1/4 : ℝ)) : ℂ))
        = ((-(Real.pi / 2) : ℝ) : ℂ) * Complex.I := by
      push_cast
      ring
    rw [harg, Complex.exp_mul_I (x := ((-(Real.pi / 2) : ℝ) : ℂ)), ← Complex.ofReal_cos,
      ← Complex.ofReal_sin, Real.cos_neg, Real.sin_neg, Real.cos_pi_div_two,
      Real.sin_pi_div_two]
    simp
  have hval : gen_ham (chainModel Complex.I) ![(1/4 : ℝ), 0, 0] 0 0 = -2 := by
    rw [chainModel_entry, h1, h2, Complex.conj_I]
    simp [Complex.I_mul_I]
    norm_num
  have hclaim : ((2 * Complex.I.re * Real.cos (2 * Real.pi * (1/4)) : ℝ) : ℂ) = 0 := by
    simp [Complex.I_re]
  exact ⟨hval, hclaim, by rw [hval, hclaim]; norm_num⟩

/-- C5 (amended).  For every complex amplitude `t` and real `k`, the chain
model's Hamiltonian entry is `t e^{2πik} + conj(t) e^{-2πik} = 2 Re(t e^{2πik})`
(which equals `2 Re(t) cos(2πk)` only when `t` is real), and for every
eigenvalue list satisfying the external eigensolver contract at `k = 0`,
`solve` returns exactly `[2 Re(t)]`. -/
theorem chain_model_amended (t : ℂ) (k : ℝ) (eval : List ℂ)
    (hlen : eval.length = 1)
    (hev : ∀ z ∈ eval, IsEigenvalue (gen_ham (chainModel t) ![0, 0, 0]) z) :
    gen_ham (chainModel t) ![k, 0, 0] 0 0
        = ((2 * (t * Complex.exp (2 * Complex.I * (Real.pi : ℂ) * (k : ℂ))).re : ℝ) : ℂ)
      ∧ sol_ham_vals (gen_ham (chainModel t) ![0, 0, 0]) eval = .ok [2 * t.re] := by
  have hconjphase : conj (Complex.exp (2 * Complex.I * (Real.pi : ℂ) * (k : ℂ)))
      = Complex.exp (-(2 * Complex.I * (Real.pi : ℂ) * (k : ℂ))) := by
    rw [← Complex.exp_conj]
    congr 1
    simp only [map_mul, Complex.conj_I, Complex.conj_ofReal, map_ofNat]
    ring
  have hmain : gen_ham (chainModel t) ![k, 0, 0] 0 0
      = ((2 * (t * Complex.exp (2 * Complex.I * (Real.pi : ℂ) * (k : ℂ))).re : ℝ) : ℂ) := by
    rw [chainModel_entry, ← Complex.add_conj]
    rw [map_mul, hconjphase]
  have hzero : gen_ham (chainModel t) ![(0 : ℝ), 0, 0] 0 0 = t + conj t := by
    rw [chainModel_entry]
    norm_num
  have hzero' : gen_ham (chainModel t) ![(0 : ℝ), 0, 0] 0 0
      = ((2 * t.re : ℝ) : ℂ) := by
    rw [hzero, Complex.add_conj]
  refine ⟨hmain, ?_⟩
  obtain ⟨z, hz⟩ := List.length_eq_one.mp hlen
  subst hz
  have hzeq : z = ((2 * t.re : ℝ) : ℂ) := by
    obtain ⟨v, hv0, hvec⟩ := hev z (List.mem_singleton_self z)
    have hv00 : v 0 ≠ 0 := by
      intro h0
      apply hv0
      funext i
      rw [Fin.eq_zero i, h0]
      rfl
    have happ := congrFun hvec 0
    rw [Matrix.mulVec, Matrix.dotProduct] at happ
    simp only [Fin.sum_univ_one, Pi.smul_apply, smul_eq_mul] at happ
    have hcan : gen_ham (chainModel t) ![(0 : ℝ), 0, 0] 0 0 = z :=
      mul_right_cancel₀ hv00 happ
    rw [← hcan, hzero']
  have hpass : ¬ hermRaise (gen_ham (chainModel t) ![(0 : ℝ), 0, 0]) := by
    have hD : (gen_ham (chainModel t) ![(0 : ℝ), 0, 0] -
        (gen_ham (chainModel t) ![(0 : ℝ), 0, 0]).conjTranspose) 0 0 = 0 := by
      simp only [Matrix.sub_apply, Matrix.conjTranspose_apply, hzero']
      rw [show (star (((2 * t.re : ℝ) : ℂ)) : ℂ) = conj (((2 * t.re : ℝ) : ℂ)) from rfl,
        Complex.conj_ofReal, sub_self]
    have hent : matEntries (gen_ham (chainModel t) ![(0 : ℝ), 0, 0] -
        (gen_ham (chainModel t) ![(0 : ℝ), 0, 0]).conjTranspose) = [0] := by
      simp only [matEntries]
      rw [show List.finRange 1 = [0] from rfl]
      simp only [List.flatMap_cons, List.flatMap_nil, List.map_cons, List.map_nil,
        List.append_nil]
      rw [hD]
    rw [hermRaise, hent]
    have h0 : npMax ([0] : List ℂ) = 0 := by
      show cmax 0 0 = 0
      unfold cmax
      split <;> rfl
    rw [h0]
    rintro (h | ⟨h, -⟩) <;> rw [hermTol] at h <;> simp at h <;> linarith
  rw [sol_ham_vals, if_neg hpass]
  have : nicefy_vals [z] = [2 * t.re] := by
    rw [nicefy_vals, hzeq]
    simp [List.insertionSort]
  rw [this]

/-- Witness for C5 (amended): the amplitude `t = 1` with eigenvalue list
`[2]`, which satisfies the eigensolver contract with eigenvector `(1)`. -/
theorem chain_model_amended_witness :
    ([(2 : ℂ)].length = 1 ∧
      (∀ z ∈ [(2 : ℂ)], IsEigenvalue (gen_ham (chainModel 1) ![0, 0, 0]) z)) ∧
      (gen_ham (chainModel 1) ![(0 : ℝ), 0, 0] 0 0
          = ((2 * ((1 : ℂ) * Complex.exp (2 * Complex.I * (Real.pi : ℂ) *
            (((0 : ℝ)) : ℂ))).re : ℝ) : ℂ)
        ∧ sol_ham_vals (gen_ham (chainModel 1) ![0, 0, 0]) [(2 : ℂ)] = .ok [2 * (1 : ℂ).re]) := by
  have hzero : gen_ham (chainModel 1) ![(0 : ℝ), 0, 0] 0 0 = 2 := by
    rw [chainModel_entry]
    norm_num
  have hev : ∀ z ∈ [(2 : ℂ)], IsEigenvalue (gen_ham (chainModel 1) ![0, 0, 0]) z := by
    intro z hzmem
    rw [List.mem_singleton] at hzmem
    subst hzmem
    refine ⟨fun _ => 1, ?_, ?_⟩
    · intro h
      have := congrFun h 0
      norm_num at this
    · funext i
      rw [Fin.eq_zero i]
      rw [Matrix.mulVec, Matrix.dotProduct]
      simp only [Fin.sum_univ_one, Pi.smul_apply, smul_eq_mul]
      rw [show (![(0 : ℝ), 0, 0]) = (fun a => ![(0 : ℝ), 0, 0] a) from rfl] at hzero
      simp only [mul_one]
      exact hzero.trans (by norm_num)
  exact ⟨⟨rfl, hev⟩, chain_model_amended 1 0 [(2 : ℂ)] rfl hev⟩

/-- Outer product `v v†` of a vector with itself. -/
def vecOuter {N : ℕ} (v : Fin N → ℂ) : Matrix (Fin N) (Fin N) ℂ :=
  Matrix.of fun a b => v a * conj (v b)

/-- Spectral reconstruction `Σ E_p · v_p v_p†` (that is `V·diag(E)·V†` for the
matrix `V` with columns `v_p`) from a list of eigenvalue/eigenvector pairs. -/
def reconSum {N : ℕ} (pairs : List (ℝ × (Fin N → ℂ))) : Matrix (Fin N) (Fin N) ℂ :=
  (pairs.map fun p => ((p.1 : ℂ) • vecOuter p.2)).sum

instance pairKeyTotal {N : ℕ} :
    IsTotal (ℝ × (Fin N → ℂ)) (fun p q => p.1 ≤ q.1) :=
  ⟨fun a b => le_total a.1 b.1⟩

instance pairKeyTrans {N : ℕ} :
    IsTrans (ℝ × (Fin N → ℂ)) (fun p q => p.1 ≤ q.1) :=
  ⟨fun _ _ _ h1 h2 => le_trans h1 h2⟩

/-- C6.  If `H` passes the hermiticity precondition check and the external
eigensolver hands `_sol_ham` a length-`N` eigenvalue list and eigenvector list
whose pairs spectrally reconstruct `H`, then `solve` returns a non-decreasing
list of `N` real eigenvalues, the eigenvectors are carried along by the same
sorting permutation so that the sorted pairs still reconstruct `H` exactly,
and the eigenvalues-only branch returns exactly the same sorted list. -/
theorem sol_ham_sorted_reconstruction {N : ℕ} (H : Matrix (Fin N) (Fin N) ℂ)
    (eval : List ℂ) (eig : List (Fin N → ℂ))
    (hlen : eval.length = N) (hleng : eig.length = N)
    (hpass : ¬ hermRaise H)
    (hdec : H = reconSum ((eval.map Complex.re).zip eig)) :
    ∃ E V, sol_ham H eval eig = .ok (E, V) ∧ E.length = N ∧
      E.Sorted (· ≤ ·) ∧ H = reconSum (E.zip V) ∧ sol_ham_vals H eval = .ok E := by
  refine ⟨(nicefy_pairs eval eig).map Prod.fst, (nicefy_pairs eval eig).map Prod.snd,
    ?_, ?_, ?_, ?_, ?_⟩
  · rw [sol_ham, if_neg hpass]
    rfl
  · have hperm : (nicefy_pairs eval eig).Perm ((eval.map Complex.re).zip eig) :=
      List.perm_insertionSort _ _
    rw [List.length_map, hperm.length_eq, List.length_zip, List.length_map, hlen, hleng,
      min_self]
  · have hsorted : (nicefy_pairs eval eig).Sorted (fun p q => p.1 ≤ q.1) :=
      List.sorted_insertionSort _ _
    exact List.Pairwise.map Prod.fst (fun _ _ h => h) hsorted
  · have hperm : (nicefy_pairs eval eig).Perm ((eval.map Complex.re).zip eig) :=
      List.perm_insertionSort _ _
    have hzip : ((nicefy_pairs eval eig).map Prod.fst).zip
        ((nicefy_pairs eval eig).map Prod.snd) = nicefy_pairs eval eig := by
      have h := List.zip_unzip (nicefy_pairs eval eig)
      rwa [List.unzip_eq_map] at h
    rw [hzip, hdec, reconSum, reconSum]
    exact ((hperm.map fun p => ((p.1 : ℂ) • vecOuter p.2)).sum_eq).symm
  · rw [sol_ham_vals, if_neg hpass]
    have heq : nicefy_vals eval = (nicefy_pairs eval eig).map Prod.fst := by
      have hperm : (nicefy_pairs eval eig).Perm ((eval.map Complex.re).zip eig) :=
        List.perm_insertionSort _ _
    -- both lists are sorted and are permutations of the same list of reals
      have hfst : ((eval.map Complex.re).zip eig).map Prod.fst = eval.map Complex.re := by
        apply List.map_fst_zip
        rw [List.length_map, hlen, hleng]
      have hperm1 : (nicefy_vals eval).Perm (eval.map Complex.re) :=
        List.perm_insertionSort _ _
      have hperm2 : ((nicefy_pairs eval eig).map Prod.fst).Perm (eval.map Complex.re) := by
        rw [← hfst]
        exact hperm.map Prod.fst
      have hs1 : (nicefy_vals eval).Sorted (· ≤ ·) := List.sorted_insertionSort _ _
      have hs2 : ((nicefy_pairs eval eig).map Prod.fst).Sorted (· ≤ ·) :=
        List.Pairwise.map Prod.fst (fun _ _ h => h) (List.sorted_insertionSort _ _)
      exact List.eq_of_perm_of_sorted (hperm1.trans hperm2.symm) hs1 hs2
    rw [heq]

/-- Hermitian 1×1 matrix `[[2]]` used as the C6 witness input. -/
def goodH : Matrix (Fin 1) (Fin 1) ℂ := Matrix.of fun _ _ => 2

lemma goodH_pass : ¬ hermRaise goodH := by
  have hD : (goodH - goodH.conjTranspose) 0 0 = 0 := by
    simp only [Matrix.sub_apply, Matrix.conjTranspose_apply]
    rw [show (star (goodH 0 0) : ℂ) = conj (goodH 0 0) from rfl]
    rw [show goodH 0 0 = ((2 : ℝ) : ℂ) by norm_num [goodH]]
    rw [Complex.conj_ofReal, sub_self]
  have hent : matEntries (goodH - goodH.conjTranspose) = [0] := by
    simp only [matEntries]
    rw [show List.finRange 1 = [0] from rfl]
    simp only [List.flatMap_cons, List.flatMap_nil, List.map_cons, List.map_nil,
      List.append_nil]
    rw [hD]
  rw [hermRaise, hent]
  have h0 : npMax ([0] : List ℂ) = 0 := by
    show cmax 0 0 = 0
    unfold cmax
    split <;> rfl
  rw [h0]
  rintro (h | ⟨h, -⟩) <;> rw [hermTol] at h <;> simp at h <;> linarith

lemma goodH_dec : goodH = reconSum (([(2 : ℂ)].map Complex.re).zip [fun _ => (1 : ℂ)]) := by
  ext i j
  rw [Fin.eq_zero i, Fin.eq_zero j]
  simp [reconSum, vecOuter, goodH]

/-- Witness for C6: the matrix `[[2]]` with eigenvalue list `[2]` and
eigenvector list `[(1)]`. -/
theorem sol_ham_sorted_reconstruction_witness :
    ([(2 : ℂ)].length = 1 ∧ ([fun _ => (1 : ℂ)] : List (Fin 1 → ℂ)).length = 1 ∧
      ¬ hermRaise goodH ∧
      goodH = reconSum (([(2 : ℂ)].map Complex.re).zip [fun _ => (1 : ℂ)])) ∧
      (∃ E V, sol_ham goodH [(2 : ℂ)] [fun _ => (1 : ℂ)] = .ok (E, V) ∧ E.length = 1 ∧
        E.Sorted (· ≤ ·) ∧ goodH = reconSum (E.zip V) ∧
        sol_ham_vals goodH [(2 : ℂ)] = .ok E) :=
  ⟨⟨rfl, rfl, goodH_pass, goodH_dec⟩,
    sol_ham_sorted_reconstruction goodH [(2 : ℂ)] [fun _ => (1 : ℂ)] rfl rfl goodH_pass
      goodH_dec⟩

/-- Mesh point `(i1/n1, i2/n2, i3/n3)` of the uniform k-mesh. -/
def meshPoint (n1 n2 n3 i1 i2 i3 : ℕ) : Fin 3 → ℝ :=
  ![(i1 : ℝ) / n1, (i2 : ℝ) / n2, (i3 : ℝ) / n3]

/-- Flat list of mesh points produced by the `dim_k == 3` branch of
`k_uniform_mesh` (pythtb.py lines 158-167).  The numpy pipeline builds
`np.mgrid[0:n1,0:n2,0:n3]`, divides component `a` by `n_a`, transposes to
index order `[i1,i2,i3,a]` and reshapes row-major to an `(n1*n2*n3, 3)`
array, so the flat entry at row `i1*n2*n3 + i2*n3 + i3` is
`(i1/n1, i2/n2, i3/n3)`: the row-major Cartesian product below. -/
def meshList (n1 n2 n3 : ℕ) : List (Fin 3 → ℝ) :=
  (List.range n1).flatMap fun i1 => (List.range n2).flatMap fun i2 =>
    (List.range n3).map fun i3 => meshPoint n1 n2 n3 i1 i2 i3

/-- The operation `tb_model.k_uniform_mesh` (pythtb.py lines 102-171): the
shape check on the mesh-size argument is enforced by the Lean arity; the
`np.min(use_mesh) <= 0` check raises, and otherwise the uniform mesh is
returned. -/
def k_uniform_mesh (n1 n2 n3 : ℕ) : Except EngineError (List (Fin 3 → ℝ)) :=
  if n1 = 0 ∨ n2 = 0 ∨ n3 = 0 then .error .configError
  else .ok (meshList n1 n2 n3)

lemma flatMap_length_const {A B : Type} (g : A → List B) (b : ℕ) (l : List A)
    (hg : ∀ x ∈ l, (g x).length = b) : (l.flatMap g).length = l.length * b := by
  induction l with
  | nil => simp
  | cons a l ih =>
    simp only [List.flatMap_cons, List.length_append, List.length_cons,
      hg a (List.mem_cons_self a l), ih fun x hx => hg x (List.mem_cons_of_mem a hx)]
    ring

lemma flatMap_getElem_const {A B : Type} (g : A → List B) (b : ℕ) (l : List A)
    (hg : ∀ x ∈ l, (g x).length = b) (i j : ℕ) (hi : i < l.length) (hj : j < b) :
    (l.flatMap g)[i * b + j]? = (g (l.get ⟨i, hi⟩))[j]? := by
  induction l generalizing i with
  | nil => simp at hi
  | cons a l ih =>
    cases i with
    | zero =>
      simp only [Nat.zero_mul, Nat.zero_add, List.flatMap_cons, List.get]
      rw [List.getElem?_append_left]
      rw [hg a (List.mem_cons_self a l)]
      exact hj
    | succ i =>
      have hlen : (g a).length = b := hg a (List.mem_cons_self a l)
      have hidx : (i + 1) * b + j = (g a).length + (i * b + j) := by
        rw [hlen]
        ring
      simp only [List.flatMap_cons]
      rw [hidx, List.getElem?_append_right (Nat.le_add_right _ _), Nat.add_sub_cancel_left]
      have hi2 : i < l.length := by
        simpa using Nat.lt_of_succ_lt_succ hi
      rw [ih (fun x hx => hg x (List.mem_cons_of_mem a hx)) i hi2]
      rfl

lemma meshList_inner_length (n1 n2 n3 : ℕ) (i1 : ℕ) :
    ((List.range n2).flatMap fun i2 =>
      (List.range n3).map fun i3 => meshPoint n1 n2 n3 i1 i2 i3).length = n2 * n3 := by
  rw [flatMap_length_const _ n3 _ fun x _ => by simp]
  simp

lemma meshList_length (n1 n2 n3 : ℕ) : (meshList n1 n2 n3).length = n1 * (n2 * n3) := by
  rw [meshList, flatMap_length_const _ (n2 * n3) _ fun x _ => meshList_inner_length n1 n2 n3 x]
  simp

lemma meshList_getElem (n1 n2 n3 i1 i2 i3 : ℕ) (hi1 : i1 < n1) (hi2 : i2 < n2)
    (hi3 : i3 < n3) :
    (meshList n1 n2 n3)[i1 * (n2 * n3) + i2 * n3 + i3]? =
      some (meshPoint n1 n2 n3 i1 i2 i3) := by
  have hinner : i2 * n3 + i3 < n2 * n3 := by
    have h1 : i2 * n3 + i3 < (i2 + 1) * n3 := by
      rw [Nat.add_mul, Nat.one_mul]
      exact Nat.add_lt_add_left hi3 _
    exact Nat.lt_of_lt_of_le h1 (Nat.mul_le_mul_right n3 hi2)
  have hassoc : i1 * (n2 * n3) + i2 * n3 + i3 = i1 * (n2 * n3) + (i2 * n3 + i3) := by ring
  rw [meshList, hassoc]
  rw [flatMap_getElem_const _ (n2 * n3) _ (fun x _ => meshList_inner_length n1 n2 n3 x)
    i1 (i2 * n3 + i3) (by simpa using hi1) hinner]
  have hget1 : (List.range n1).get ⟨i1, by simpa using hi1⟩ = i1 := List.get_range _ _
  rw [hget1]
  rw [flatMap_getElem_const _ n3 _ (fun x _ => by simp) i2 i3 (by simpa using hi2) hi3]
  have hget2 : (List.range n2).get ⟨i2, by simpa using hi2⟩ = i2 := List.get_range _ _
  rw [hget2]
  rw [List.getElem?_map, List.getElem?_range hi3]
  rfl

lemma meshPoint_coord_zero (n1 n2 n3 i1 i2 i3 : ℕ) (h1 : 0 < n1) (h2 : 0 < n2)
    (h3 : 0 < n3) (hz : meshPoint n1 n2 n3 i1 i2 i3 = fun _ => (0 : ℝ)) :
    i1 = 0 ∧ i2 = 0 ∧ i3 = 0 := by
  have e0 := congrFun hz 0
  have e1 := congrFun hz 1
  have e2 := congrFun hz 2
  simp only [meshPoint, Matrix.cons_val_zero, Matrix.cons_val_one, Matrix.head_cons,
    Matrix.cons_val_two, Matrix.tail_cons] at e0 e1 e2
  have hn1 : ((n1 : ℝ)) ≠ 0 := Nat.cast_ne_zero.mpr (Nat.pos_iff_ne_zero.mp h1)
  have hn2 : ((n2 : ℝ)) ≠ 0 := Nat.cast_ne_zero.mpr (Nat.pos_iff_ne_zero.mp h2)
  have hn3 : ((n3 : ℝ)) ≠ 0 := Nat.cast_ne_zero.mpr (Nat.pos_iff_ne_zero.mp h3)
  refine ⟨?_, ?_, ?_⟩
  · have := (div_eq_zero_iff.mp e0).resolve_right hn1
    exact_mod_cast this
  · have := (div_eq_zero_iff.mp e1).resolve_right hn2
    exact_mod_cast this
  · have := (div_eq_zero_iff.mp e2).resolve_right hn3
    exact_mod_cast this

/-- C7.  For positive mesh sizes, `uniformMesh` succeeds and returns exactly
`n1*n2*n3` points; the all-zero vector is the first point and occurs nowhere
in the tail; every coordinate lies in `[0,1)`; and the point at flat index
`i1*n2*n3 + i2*n3 + i3` is `(i1/n1, i2/n2, i3/n3)` (row-major Cartesian
product, last dimension fastest). -/
theorem k_uniform_mesh_spec (n1 n2 n3 : ℕ) (h1 : 0 < n1) (h2 : 0 < n2) (h3 : 0 < n3) :
    ∃ l, k_uniform_mesh n1 n2 n3 = .ok l ∧
      l.length = n1 * n2 * n3 ∧
      l.head? = some (fun _ => 0) ∧
      (∀ v ∈ l.tail, v ≠ fun _ => 0) ∧
      (∀ v ∈ l, ∀ a, 0 ≤ v a ∧ v a < 1) ∧
      (∀ i1 i2 i3 : ℕ, i1 < n1 → i2 < n2 → i3 < n3 →
        l[i1 * (n2 * n3) + i2 * n3 + i3]? =
          some ![(i1 : ℝ) / n1, (i2 : ℝ) / n2, (i3 : ℝ) / n3]) := by
  refine ⟨meshList n1 n2 n3, ?_, ?_, ?_, ?_, ?_, ?_⟩
  · rw [k_uniform_mesh, if_neg]
    push_neg
    exact ⟨Nat.pos_iff_ne_zero.mp h1, Nat.pos_iff_ne_zero.mp h2, Nat.pos_iff_ne_zero.mp h3⟩
  · rw [meshList_length]
    ring
  · have h0 := meshList_getElem n1 n2 n3 0 0 0 h1 h2 h3
    simp only [Nat.zero_mul, Nat.add_zero, Nat.zero_add] at h0
    rw [List.head?_eq_getElem?, h0]
    congr 1
    funext a
    fin_cases a <;> simp [meshPoint]
  · intro v hv
    obtain ⟨n, hn⟩ := List.mem_iff_getElem?.mp hv
    rw [List.getElem?_tail] at hn
    have hlt : n + 1 < (meshList n1 n2 n3).length := (List.getElem?_eq_some.mp hn).1
    rw [meshList_length] at hlt
    have hn23 : 0 < n2 * n3 := Nat.mul_pos h2 h3
    have hi1 : (n + 1) / (n2 * n3) < n1 := (Nat.div_lt_iff_lt_mul hn23).mpr hlt
    have hr : (n + 1) % (n2 * n3) < n2 * n3 := Nat.mod_lt _ hn23
    have hi2 : (n + 1) % (n2 * n3) / n3 < n2 := (Nat.div_lt_iff_lt_mul h3).mpr hr
    have hi3 : (n + 1) % (n2 * n3) % n3 < n3 := Nat.mod_lt _ h3
    have hqeq : (n + 1) / (n2 * n3) * (n2 * n3) + (n + 1) % (n2 * n3) / n3 * n3 +
        (n + 1) % (n2 * n3) % n3 = n + 1 := by
      calc (n + 1) / (n2 * n3) * (n2 * n3) + (n + 1) % (n2 * n3) / n3 * n3 +
            (n + 1) % (n2 * n3) % n3
          = (n2 * n3) * ((n + 1) / (n2 * n3)) +
            (n3 * ((n + 1) % (n2 * n3) / n3) + (n + 1) % (n2 * n3) % n3) := by ring
        _ = (n2 * n3) * ((n + 1) / (n2 * n3)) + (n + 1) % (n2 * n3) := by
            rw [Nat.div_add_mod]
        _ = n + 1 := Nat.div_add_mod (n + 1) (n2 * n3)
    have hsome := meshList_getElem n1 n2 n3 ((n + 1) / (n2 * n3))
      ((n + 1) % (n2 * n3) / n3) ((n + 1) % (n2 * n3) % n3) hi1 hi2 hi3
    rw [hqeq, hn] at hsome
    have hveq : v = meshPoint n1 n2 n3 ((n + 1) / (n2 * n3))
        ((n + 1) % (n2 * n3) / n3) ((n + 1) % (n2 * n3) % n3) := Option.some.inj hsome
    intro hvz
    rw [hveq] at hvz
    obtain ⟨z1, z2, z3⟩ := meshPoint_coord_zero n1 n2 n3 _ _ _ h1 h2 h3 hvz
    have : (n + 1) = 0 := by
      rw [← hqeq, z1, z2, z3]
      simp
    exact Nat.succ_ne_zero n this
  · intro v hv
    simp only [meshList, List.mem_flatMap, List.mem_map, List.mem_range] at hv
    obtain ⟨i1, hi1, i2, hi2, i3, hi3, rfl⟩ := hv
    intro a
    fin_cases a
    · simp only [meshPoint, Matrix.cons_val_zero]
      exact ⟨div_nonneg (Nat.cast_nonneg _) (Nat.cast_nonneg _),
        (div_lt_one (by exact_mod_cast h1)).mpr (by exact_mod_cast hi1)⟩
    · simp only [meshPoint, Matrix.cons_val_one, Matrix.head_cons]
      exact ⟨div_nonneg (Nat.cast_nonneg _) (Nat.cast_nonneg _),
        (div_lt_one (by exact_mod_cast h2)).mpr (by exact_mod_cast hi2)⟩
    · simp only [meshPoint]
      rw [show ((⟨2, by norm_num⟩ : Fin 3)) = (2 : Fin 3) from rfl]
      rw [Matrix.cons_val_two]
      simp only [Matrix.tail_cons, Matrix.head_cons]
      exact ⟨div_nonneg (Nat.cast_nonneg _) (Nat.cast_nonneg _),
        (div_lt_one (by exact_mod_cast h3)).mpr (by exact_mod_cast hi3)⟩
  · intro i1 i2 i3 hi1 hi2 hi3
    exact meshList_getElem n1 n2 n3 i1 i2 i3 hi1 hi2 hi3

/-- Witness for C7: the mesh of sizes `(1,1,1)`. -/
theorem k_uniform_mesh_spec_witness :
    (0 : ℕ) < 1 ∧
      ∃ l, k_uniform_mesh 1 1 1 = .ok l ∧
        l.length = 1 * 1 * 1 ∧
        l.head? = some (fun _ => 0) ∧
        (∀ v ∈ l.tail, v ≠ fun _ => 0) ∧
        (∀ v ∈ l, ∀ a, 0 ≤ v a ∧ v a < 1) ∧
        (∀ i1 i2 i3 : ℕ, i1 < 1 → i2 < 1 → i3 < 1 →
          l[i1 * (1 * 1) + i2 * 1 + i3]? =
            some ![(i1 : ℝ) / ((1 : ℕ) : ℝ), (i2 : ℝ) / ((1 : ℕ) : ℝ),
              (i3 : ℝ) / ((1 : ℕ) : ℝ)]) :=
  ⟨Nat.one_pos, k_uniform_mesh_spec 1 1 1 Nat.one_pos Nat.one_pos Nat.one_pos⟩

/-- Reciprocal-space metric tensor
`k_metric = np.linalg.inv(np.dot(lat_per, lat_per.T))` (pythtb.py line 268). -/
def kMetric (lat : Matrix (Fin 3) (Fin 3) ℝ) : Matrix (Fin 3) (Fin 3) ℝ :=
  (lat * lat.transpose)⁻¹

/-- Segment length `np.sqrt(np.dot(dk, np.dot(k_metric, dk)))` (pythtb.py
line 276).  `np.sqrt` of a negative argument would be `nan`; `Real.sqrt`
returns `0` there instead — the two agree on the nonnegative quadratic forms
produced by the positive-definite metric of any validated lattice. -/
def dklen (lat : Matrix (Fin 3) (Fin 3) ℝ) (dk : Fin 3 → ℝ) : ℝ :=
  Real.sqrt (Matrix.dotProduct dk ((kMetric lat).mulVec dk))

/-- Cumulative node distances `k_node` (pythtb.py lines 273-277), as a
function of the node position: `k_node[0] = 0` and
`k_node[n] = k_node[n-1] + dklen(nodes[n]-nodes[n-1])`.  The node list is
passed as a function `nodes : ℕ → Fin 3 → ℝ` together with its length `m`;
entries at positions `≥ m` are never consulted by `k_path` below. -/
def kNode (lat : Matrix (Fin 3) (Fin 3) ℝ) (nodes : ℕ → Fin 3 → ℝ) : ℕ → ℝ
  | 0 => 0
  | n + 1 => kNode lat nodes n + dklen lat (fun a => nodes (n + 1) a - nodes n a)

/-- Python 3's `round`: round half to even (the `int(round(...))` on
pythtb.py line 283). -/
def pyRound (x : ℝ) : ℤ :=
  if Int.fract x = 1 / 2 then (if Even ⌊x⌋ then ⌊x⌋ else ⌊x⌋ + 1) else round x

/-- Output indices `node_index` assigned to the nodes (pythtb.py lines
280-284): `node_index[0] = 0`, interior nodes get
`int(round(k_node[n]/k_node[-1] * (nk-1)))`, and the last node gets
`nk - 1`. -/
def nodeIndex (lat : Matrix (Fin 3) (Fin 3) ℝ) (nodes : ℕ → Fin 3 → ℝ) (m nk : ℕ)
    (n : ℕ) : ℤ :=
  if n = 0 then 0
  else if n = m - 1 then (nk : ℤ) - 1
  else pyRound (kNode lat nodes n / kNode lat nodes (m - 1) * ((nk : ℝ) - 1))

/-- Indices visited by the inner loop `for j in range(n_i, n_f+1)`
(pythtb.py line 301); empty when `n_f + 1 ≤ n_i`, and all indices reached in
the code are nonnegative. -/
def segJs (ni nf : ℤ) : List ℕ :=
  (List.range (nf + 1 - ni).toNat).map fun o => ni.toNat + o

/-- Body of the interpolation loop (pythtb.py lines 294-304) for one segment:
for each `j` from `n_i` to `n_f`, set
`frac = float(j-n_i)/float(n_f-n_i)`, `k_dist[j] = kd_i + frac*(kd_f-kd_i)`
and `k_vec[j] = k_i + frac*(k_f-k_i)`.  The two arrays are carried as a pair
of functions updated in place. -/
def segWrite (kdi kdf : ℝ) (ki kf : Fin 3 → ℝ) (ni nf : ℤ)
    (st : (ℕ → ℝ) × (ℕ → Fin 3 → ℝ)) : (ℕ → ℝ) × (ℕ → Fin 3 → ℝ) :=
  (segJs ni nf).foldl
    (fun st j =>
      (Function.update st.1 j
        (kdi + (((j : ℝ) - (ni : ℝ)) / ((nf : ℝ) - (ni : ℝ))) * (kdf - kdi)),
       Function.update st.2 j
        (fun a => ki a + (((j : ℝ) - (ni : ℝ)) / ((nf : ℝ) - (ni : ℝ))) * (kf a - ki a))))
    st

/-- The full interpolation loop `for n in range(1, n_nodes)` (pythtb.py lines
292-304), starting from the zero-initialised arrays with
`k_vec[0] = k_list[0]`; the list index `t` of `range (m-1)` stands for the
segment from node `t` to node `t+1` (the loop variable `n = t+1`). -/
def pathState (lat : Matrix (Fin 3) (Fin 3) ℝ) (nodes : ℕ → Fin 3 → ℝ) (m nk : ℕ) :
    (ℕ → ℝ) × (ℕ → Fin 3 → ℝ) :=
  (List.range (m - 1)).foldl
    (fun st t =>
      segWrite (kNode lat nodes t) (kNode lat nodes (t + 1)) (nodes t) (nodes (t + 1))
        (nodeIndex lat nodes m nk t) (nodeIndex lat nodes m nk (t + 1)) st)
    (fun _ => 0, fun j => if j = 0 then nodes 0 else fun _ => 0)

/-- The operation `tb_model.k_path` (pythtb.py lines 173-334) for an explicit
node list (`nodes` with `m` entries) and `nk` requested points; the
dimension check (line 253) is enforced by the Lean types and the diagnostic
report is omitted (it does not alter the returned data).  Failure modes, in
source order: `nk < m` raises the validation `Exception` (line 260);
when all node distances vanish (`k_node[-1] == 0`, only reachable through
line 282, so only when `m ≥ 3`) the interior-node loop computes
`nan = 0.0/0.0` and `int(round(nan))` raises `ValueError`; and when two
consecutive nodes are assigned the same output index, the loop body at line
302 computes `float(0)/float(0)` and raises `ZeroDivisionError`.  Both
unguarded zero-divisor crashes are modelled as `divByZero`. -/
def k_path (lat : Matrix (Fin 3) (Fin 3) ℝ) (nodes : ℕ → Fin 3 → ℝ) (m nk : ℕ) :
    Except EngineError (List (Fin 3 → ℝ) × List ℝ × List ℝ) :=
  if nk < m then .error .configError
  else if 3 ≤ m ∧ kNode lat nodes (m - 1) = 0 then .error .divByZero
  else if ∃ n ∈ Finset.range m, 1 ≤ n ∧
      nodeIndex lat nodes m nk n = nodeIndex lat nodes m nk (n - 1) then .error .divByZero
  else
    .ok ((List.range nk).map (pathState lat nodes m nk).2,
      (List.range nk).map (pathState lat nodes m nk).1,
      (List.range m).map (kNode lat nodes))

/-- C9.  A lattice whose determinant has modulus below `1e-6` is rejected at
model construction with the configuration error, and `k_path` called with
fewer total points than nodes is rejected with the configuration error; in
both cases only the error is produced. -/
theorem validation_rejection {N : ℕ} (lat latP : Matrix (Fin 3) (Fin 3) ℝ)
    (orb : Fin N → Fin 3 → ℝ) (deg_ws : List ℕ) (Rvec_list : List (Fin 3 → ℤ))
    (Hmat_list : List (List (Fin N × Fin N × ℂ))) (nspin : ℕ)
    (nodes : ℕ → Fin 3 → ℝ) (m nk : ℕ)
    (hdet : |lat.det| < latTol) (hnk : nk < m) :
    mk_tb_model lat orb deg_ws Rvec_list Hmat_list nspin = .error .configError ∧
      k_path latP nodes m nk = .error .configError := by
  constructor
  · rw [mk_tb_model, if_pos hdet]
  · rw [k_path, if_pos hnk]

/-- Witness for C9: the all-zero lattice and a two-node path asked for a
single point. -/
theorem validation_rejection_witness :
    (|(0 : Matrix (Fin 3) (Fin 3) ℝ).det| < latTol ∧ (1 : ℕ) < 2) ∧
      (mk_tb_model (0 : Matrix (Fin 3) (Fin 3) ℝ) (fun (_ : Fin 1) _ => (0 : ℝ)) [] [] [] 1
          = .error .configError ∧
        k_path 1 (fun _ _ => (0 : ℝ)) 2 1 = .error .configError) := by
  have hdet : |(0 : Matrix (Fin 3) (Fin 3) ℝ).det| < latTol := by
    rw [Matrix.det_zero (by infer_instance), abs_zero, latTol]
    norm_num
  exact ⟨⟨hdet, Nat.one_lt_two⟩,
    validation_rejection 0 1 (fun _ _ => 0) [] [] [] 1 (fun _ _ => 0) 2 1 hdet
      Nat.one_lt_two⟩

/-- C10.  Three coincident nodes pass all of `k_path`'s stated validations
(node count `3 ≥ 2`, `totalPoints = 3 ≥ 3`), yet the total node distance
`node_dist[last]` is `0`, the fractional-position division is reached with a
zero divisor, and `k_path` crashes instead of returning a result. -/
theorem k_path_coincident_divzero :
    kNode 1 (fun _ _ => (0 : ℝ)) 2 = 0 ∧
      k_path 1 (fun _ _ => (0 : ℝ)) 3 3 = .error .divByZero := by
  have hkn : ∀ n, kNode 1 (fun _ _ => (0 : ℝ)) n = 0 := by
    intro n
    induction n with
    | zero => rfl
    | succ n ih =>
      show kNode 1 (fun _ _ => (0 : ℝ)) n + dklen 1 (fun a => 0 - 0) = 0
      rw [ih, dklen]
      have : (fun _ : Fin 3 => (0 : ℝ) - 0) = fun _ => (0 : ℝ) := by funext a; ring
      rw [this]
      simp [Matrix.dotProduct]
  refine ⟨hkn 2, ?_⟩
  rw [k_path, if_neg (by norm_num), if_pos ⟨by norm_num, hkn 2⟩]

/-- Node list `(A, A, B)` with `A = 0` and `B = (1,0,0)`: the first two nodes
coincide but the list is not all-coincident. -/
def cexNodes : ℕ → Fin 3 → ℝ := fun n => if n = 2 then ![1, 0, 0] else 0

/-- Counterexample to C8: the node list `(A, A, B)` is not all-coincident and
`totalPoints = 3` equals the node count, yet the zero-length first segment
receives zero output indices for both endpoints and `k_path` crashes on the
division `float(0)/float(0)` instead of returning the promised sequences. -/
theorem k_path_degenerate_counterexample :
    cexNodes 0 = cexNodes 1 ∧ cexNodes 2 ≠ cexNodes 0 ∧
      k_path 1 cexNodes 3 3 = .error .divByZero := by
  have h01 : cexNodes 0 = cexNodes 1 := rfl
  have h20 : cexNodes 2 ≠ cexNodes 0 := by
    intro h
    have := congrFun h 0
    simp [cexNodes] at this
  have hk1 : kNode 1 cexNodes 1 = 0 := by
    show kNode 1 cexNodes 0 + dklen 1 (fun a => cexNodes 1 a - cexNodes 0 a) = 0
    have : (fun a => cexNodes 1 a - cexNodes 0 a) = fun _ => (0 : ℝ) := by
      funext a
      simp [cexNodes]
    rw [this, dklen]
    show (0 : ℝ) + Real.sqrt _ = 0
    simp [Matrix.dotProduct]
  have hk2 : kNode 1 cexNodes 2 = 1 := by
    show kNode 1 cexNodes 1 + dklen 1 (fun a => cexNodes 2 a - cexNodes 1 a) = 1
    rw [hk1, dklen]
    have harg : (fun a => cexNodes 2 a - cexNodes 1 a) = ![1, 0, 0] := by
      funext a
      fin_cases a <;> simp [cexNodes]
    rw [harg]
    have hmet : kMetric 1 = 1 := by
      rw [kMetric, Matrix.transpose_one, mul_one, inv_one]
    rw [hmet, Matrix.one_mulVec]
    have : Matrix.dotProduct (![1, 0, 0] : Fin 3 → ℝ) ![1, 0, 0] = 1 := by
      simp [Matrix.dotProduct, Fin.sum_univ_three]
    rw [this, Real.sqrt_one]
    ring
  have hidx1 : nodeIndex 1 cexNodes 3 3 1 = 0 := by
    rw [nodeIndex, if_neg (by omega), if_neg (by omega)]
    rw [hk1, hk2]
    norm_num [pyRound, Int.fract]
  refine ⟨h01, h20, ?_⟩
  rw [k_path, if_neg (by norm_num), if_neg (by rw [hk2]; rintro ⟨-, h⟩; norm_num at h),
    if_pos ⟨1, Finset.mem_range.mpr (by norm_num), le_refl 1, by rw [hidx1]; rfl⟩]

lemma foldl_pair_update {A B : Type} (g1 : ℕ → A) (g2 : ℕ → B) (js : List ℕ)
    (st : (ℕ → A) × (ℕ → B)) :
    js.foldl (fun st j => (Function.update st.1 j (g1 j), Function.update st.2 j (g2 j))) st
      = (js.foldl (fun f j => Function.update f j (g1 j)) st.1,
         js.foldl (fun f j => Function.update f j (g2 j)) st.2) := by
  induction js generalizing st with
  | nil => rfl
  | cons j js ih => simp only [List.foldl_cons, ih]

lemma foldl_update_apply {A : Type} (g : ℕ → A) (js : List ℕ) (f : ℕ → A) (x : ℕ) :
    (js.foldl (fun f j => Function.update f j (g j)) f) x = if x ∈ js then g x else f x := by
  induction js generalizing f with
  | nil => simp
  | cons j js ih =>
    simp only [List.foldl_cons, ih, List.mem_cons]
    by_cases hm : x ∈ js
    · rw [if_pos hm, if_pos (Or.inr hm)]
    · rw [if_neg hm]
      by_cases hj : x = j
      · rw [if_pos (Or.inl hj), hj, Function.update_same]
      · rw [if_neg (fun hc => hc.elim hj hm), Function.update_noteq hj]

lemma segJs_mem (ni nf : ℤ) (hni : 0 ≤ ni) (x : ℕ) :
    x ∈ segJs ni nf ↔ ni.toNat ≤ x ∧ x ≤ nf.toNat ∧ ni ≤ nf := by
  simp only [segJs, List.mem_map, List.mem_range]
  constructor
  · rintro ⟨o, ho, rfl⟩
    omega
  · rintro ⟨hx1, hx2, hx3⟩
    exact ⟨x - ni.toNat, by omega, by omega⟩

lemma segWrite_fst (kdi kdf : ℝ) (ki kf : Fin 3 → ℝ) (ni nf : ℤ)
    (st : (ℕ → ℝ) × (ℕ → Fin 3 → ℝ)) (x : ℕ) :
    (segWrite kdi kdf ki kf ni nf st).1 x
      = if x ∈ segJs ni nf then
          kdi + (((x : ℝ) - (ni : ℝ)) / ((nf : ℝ) - (ni : ℝ))) * (kdf - kdi)
        else st.1 x := by
  rw [segWrite, foldl_pair_update]
  exact foldl_update_apply _ _ _ x

lemma segWrite_snd (kdi kdf : ℝ) (ki kf : Fin 3 → ℝ) (ni nf : ℤ)
    (st : (ℕ → ℝ) × (ℕ → Fin 3 → ℝ)) (x : ℕ) :
    (segWrite kdi kdf ki kf ni nf st).2 x
      = if x ∈ segJs ni nf then
          (fun a => ki a + (((x : ℝ) - (ni : ℝ)) / ((nf : ℝ) - (ni : ℝ))) * (kf a - ki a))
        else st.2 x := by
  rw [segWrite, foldl_pair_update]
  exact foldl_update_apply _ _ _ x

lemma dklen_nonneg (lat : Matrix (Fin 3) (Fin 3) ℝ) (dk : Fin 3 → ℝ) : 0 ≤ dklen lat dk :=
  Real.sqrt_nonneg _

lemma kNode_le_succ (lat : Matrix (Fin 3) (Fin 3) ℝ) (nodes : ℕ → Fin 3 → ℝ) (n : ℕ) :
    kNode lat nodes n ≤ kNode lat nodes (n + 1) := by
  show kNode lat nodes n ≤ kNode lat nodes n + dklen lat _
  exact le_add_of_nonneg_right (dklen_nonneg _ _)

lemma kNode_mono (lat : Matrix (Fin 3) (Fin 3) ℝ) (nodes : ℕ → Fin 3 → ℝ) :
    Monotone (kNode lat nodes) :=
  monotone_nat_of_le_succ (kNode_le_succ lat nodes)

lemma pyRound_zero : pyRound 0 = 0 := by
  rw [pyRound, if_neg]
  · exact round_zero
  · rw [Int.fract_zero]
    norm_num

/-- Prefix of the interpolation loop: the arrays after the first `t` segments
have been processed (used to reason about `pathState` by induction). -/
def pathStatePartial (lat : Matrix (Fin 3) (Fin 3) ℝ) (nodes : ℕ → Fin 3 → ℝ) (m nk : ℕ)
    (t : ℕ) : (ℕ → ℝ) × (ℕ → Fin 3 → ℝ) :=
  (List.range t).foldl
    (fun st u =>
      segWrite (kNode lat nodes u) (kNode lat nodes (u + 1)) (nodes u) (nodes (u + 1))
        (nodeIndex lat nodes m nk u) (nodeIndex lat nodes m nk (u + 1)) st)
    (fun _ => 0, fun j => if j = 0 then nodes 0 else fun _ => 0)

lemma pathStatePartial_succ (lat : Matrix (Fin 3) (Fin 3) ℝ) (nodes : ℕ → Fin 3 → ℝ)
    (m nk t : ℕ) :
    pathStatePartial lat nodes m nk (t + 1)
      = segWrite (kNode lat nodes t) (kNode lat nodes (t + 1)) (nodes t) (nodes (t + 1))
        (nodeIndex lat nodes m nk t) (nodeIndex lat nodes m nk (t + 1))
        (pathStatePartial lat nodes m nk t) := by
  rw [pathStatePartial, pathStatePartial, List.range_succ, List.foldl_append, List.foldl_cons,
    List.foldl_nil]

lemma pathState_eq_partial (lat : Matrix (Fin 3) (Fin 3) ℝ) (nodes : ℕ → Fin 3 → ℝ)
    (m nk : ℕ) : pathState lat nodes m nk = pathStatePartial lat nodes m nk (m - 1) := rfl

lemma nodeIndex_zero (lat : Matrix (Fin 3) (Fin 3) ℝ) (nodes : ℕ → Fin 3 → ℝ) (m nk : ℕ) :
    nodeIndex lat nodes m nk 0 = 0 := by
  rw [nodeIndex, if_pos rfl]

lemma nodeIndex_last (lat : Matrix (Fin 3) (Fin 3) ℝ) (nodes : ℕ → Fin 3 → ℝ) (m nk : ℕ)
    (hm : 2 ≤ m) : nodeIndex lat nodes m nk (m - 1) = (nk : ℤ) - 1 := by
  rw [nodeIndex, if_neg (by omega), if_pos rfl]

lemma nodeIndex_chain_le (lat : Matrix (Fin 3) (Fin 3) ℝ) (nodes : ℕ → Fin 3 → ℝ)
    (m nk : ℕ)
    (hidx : ∀ n, 1 ≤ n → n < m →
      nodeIndex lat nodes m nk (n - 1) < nodeIndex lat nodes m nk n) :
    ∀ a b, a ≤ b → b ≤ m - 1 →
      nodeIndex lat nodes m nk a ≤ nodeIndex lat nodes m nk b := by
  intro a b hab hbm
  induction b with
  | zero =>
    have ha : a = 0 := Nat.le_zero.mp hab
    rw [ha]
  | succ b ihb =>
    rcases Nat.lt_or_ge a (b + 1) with h | h
    · have hs : nodeIndex lat nodes m nk b < nodeIndex lat nodes m nk (b + 1) := by
        have := hidx (b + 1) (Nat.succ_le_succ (Nat.zero_le b)) (by omega)
        simpa using this
      exact le_trans (ihb (Nat.lt_succ_iff.mp h) (by omega)) (le_of_lt hs)
    · have ha : a = b + 1 := by omega
      rw [ha]

lemma nodeIndex_chain_lt (lat : Matrix (Fin 3) (Fin 3) ℝ) (nodes : ℕ → Fin 3 → ℝ)
    (m nk : ℕ)
    (hidx : ∀ n, 1 ≤ n → n < m →
      nodeIndex lat nodes m nk (n - 1) < nodeIndex lat nodes m nk n) :
    ∀ a b, a < b → b ≤ m - 1 →
      nodeIndex lat nodes m nk a < nodeIndex lat nodes m nk b := by
  intro a b hab hbm
  have h1 : nodeIndex lat nodes m nk a ≤ nodeIndex lat nodes m nk (b - 1) :=
    nodeIndex_chain_le lat nodes m nk hidx a (b - 1) (by omega) (by omega)
  have h2 : nodeIndex lat nodes m nk (b - 1) < nodeIndex lat nodes m nk b :=
    hidx b (by omega) (by omega)
  exact lt_of_le_of_lt h1 h2

lemma nodeIndex_nonneg (lat : Matrix (Fin 3) (Fin 3) ℝ) (nodes : ℕ → Fin 3 → ℝ)
    (m nk : ℕ)
    (hidx : ∀ n, 1 ≤ n → n < m →
      nodeIndex lat nodes m nk (n - 1) < nodeIndex lat nodes m nk n) :
    ∀ n, n ≤ m - 1 → 0 ≤ nodeIndex lat nodes m nk n := by
  intro n hn
  rw [← nodeIndex_zero lat nodes m nk]
  exact nodeIndex_chain_le lat nodes m nk hidx 0 n (Nat.zero_le n) hn

lemma pathState_invariant (lat : Matrix (Fin 3) (Fin 3) ℝ) (nodes : ℕ → Fin 3 → ℝ)
    (m nk : ℕ) (hm : 2 ≤ m)
    (hidx : ∀ n, 1 ≤ n → n < m →
      nodeIndex lat nodes m nk (n - 1) < nodeIndex lat nodes m nk n) :
    ∀ t, t ≤ m - 1 →
      ((pathStatePartial lat nodes m nk t).1 ((nodeIndex lat nodes m nk t).toNat)
          = kNode lat nodes t)
      ∧ (∀ j1 j2, j1 ≤ j2 → j2 ≤ (nodeIndex lat nodes m nk t).toNat →
          (pathStatePartial lat nodes m nk t).1 j1
            ≤ (pathStatePartial lat nodes m nk t).1 j2)
      ∧ ((pathStatePartial lat nodes m nk t).2 0 = nodes 0)
      ∧ ((pathStatePartial lat nodes m nk t).2 ((nodeIndex lat nodes m nk t).toNat)
          = nodes t) := by
  intro t
  induction t with
  | zero =>
    intro _
    rw [nodeIndex_zero]
    refine ⟨rfl, ?_, ?_, ?_⟩
    · intro j1 j2 _ _
      exact le_refl (0 : ℝ)
    · show (if (0 : ℕ) = 0 then nodes 0 else fun _ => 0) = nodes 0
      rw [if_pos rfl]
    · show (if (0 : ℤ).toNat = 0 then nodes 0 else fun _ => 0) = nodes 0
      rw [if_pos Int.toNat_zero]
  | succ t iht =>
    intro htm1
    obtain ⟨htop, hmono, hkv0, hkvtop⟩ := iht (by omega)
    have hni0 : 0 ≤ nodeIndex lat nodes m nk t :=
      nodeIndex_nonneg lat nodes m nk hidx t (by omega)
    have hlt : nodeIndex lat nodes m nk t < nodeIndex lat nodes m nk (t + 1) := by
      have := hidx (t + 1) (by omega) (by omega)
      simpa using this
    have hnf0 : 0 ≤ nodeIndex lat nodes m nk (t + 1) := le_of_lt (lt_of_le_of_lt hni0 hlt)
    have hden : (0 : ℝ) < ((nodeIndex lat nodes m nk (t + 1) : ℝ))
        - ((nodeIndex lat nodes m nk t : ℝ)) := by
      rw [sub_pos]
      exact_mod_cast hlt
    have hdel : kNode lat nodes t ≤ kNode lat nodes (t + 1) := kNode_le_succ lat nodes t
    have hmem : ∀ x : ℕ, x ∈ segJs (nodeIndex lat nodes m nk t) (nodeIndex lat nodes m nk (t + 1))
        ↔ (nodeIndex lat nodes m nk t).toNat ≤ x
          ∧ x ≤ (nodeIndex lat nodes m nk (t + 1)).toNat := by
      intro x
      rw [segJs_mem _ _ hni0]
      constructor
      · rintro ⟨h1, h2, -⟩
        exact ⟨h1, h2⟩
      · rintro ⟨h1, h2⟩
        exact ⟨h1, h2, le_of_lt hlt⟩
    have hcastni : (((nodeIndex lat nodes m nk t).toNat : ℝ))
        = ((nodeIndex lat nodes m nk t : ℝ)) := by
      rw [← Int.cast_natCast, Int.toNat_of_nonneg hni0]
    have hcastnf : (((nodeIndex lat nodes m nk (t + 1)).toNat : ℝ))
        = ((nodeIndex lat nodes m nk (t + 1) : ℝ)) := by
      rw [← Int.cast_natCast, Int.toNat_of_nonneg hnf0]
    have htoNatle : (nodeIndex lat nodes m nk t).toNat
        ≤ (nodeIndex lat nodes m nk (t + 1)).toNat := Int.toNat_le_toNat (le_of_lt hlt)
    rw [pathStatePartial_succ]
    refine ⟨?_, ?_, ?_, ?_⟩
    · rw [segWrite_fst, if_pos ((hmem _).mpr ⟨htoNatle, le_refl _⟩), hcastnf,
        div_self (ne_of_gt hden), one_mul]
      ring
    · intro j1 j2 h12 hj2
      have hDnn : (0 : ℝ) ≤ kNode lat nodes (t + 1) - kNode lat nodes t := sub_nonneg.mpr hdel
      rw [segWrite_fst, segWrite_fst]
      by_cases hm2 : j2 ∈ segJs (nodeIndex lat nodes m nk t) (nodeIndex lat nodes m nk (t + 1))
      · rw [if_pos hm2]
        obtain ⟨hj2lo, hj2hi⟩ := (hmem j2).mp hm2
        have hfrac2nn : (0 : ℝ) ≤ ((j2 : ℝ) - (nodeIndex lat nodes m nk t : ℝ))
            / ((nodeIndex lat nodes m nk (t + 1) : ℝ) - (nodeIndex lat nodes m nk t : ℝ)) := by
          apply div_nonneg ?_ (le_of_lt hden)
          rw [sub_nonneg, ← hcastni]
          exact_mod_cast hj2lo
        by_cases hm1 : j1 ∈ segJs (nodeIndex lat nodes m nk t) (nodeIndex lat nodes m nk (t + 1))
        · rw [if_pos hm1]
          have hfrac : ((j1 : ℝ) - (nodeIndex lat nodes m nk t : ℝ))
              / ((nodeIndex lat nodes m nk (t + 1) : ℝ) - (nodeIndex lat nodes m nk t : ℝ))
              ≤ ((j2 : ℝ) - (nodeIndex lat nodes m nk t : ℝ))
              / ((nodeIndex lat nodes m nk (t + 1) : ℝ) - (nodeIndex lat nodes m nk t : ℝ)) := by
            apply (div_le_div_right hden).mpr
            apply sub_le_sub_right
            exact_mod_cast h12
          exact add_le_add_left (mul_le_mul_of_nonneg_right hfrac hDnn) _
        · rw [if_neg hm1]
          have hj1lt : j1 < (nodeIndex lat nodes m nk t).toNat := by
            by_contra hcon
            exact hm1 ((hmem j1).mpr ⟨by omega, le_trans h12 hj2hi⟩)
          have hold : (pathStatePartial lat nodes m nk t).1 j1 ≤ kNode lat nodes t := by
            rw [← htop]
            exact hmono j1 _ (le_of_lt hj1lt) (le_refl _)
          apply le_trans hold
          exact le_add_of_nonneg_right (mul_nonneg hfrac2nn hDnn)
      · rw [if_neg hm2]
        have hj2lt : j2 < (nodeIndex lat nodes m nk t).toNat := by
          by_contra hcon
          exact hm2 ((hmem j2).mpr ⟨by omega, hj2⟩)
        have hm1 : j1 ∉ segJs (nodeIndex lat nodes m nk t) (nodeIndex lat nodes m nk (t + 1)) := by
          intro hin
          have := ((hmem j1).mp hin).1
          omega
        rw [if_neg hm1]
        exact hmono j1 j2 h12 (by omega)
    · rw [segWrite_snd]
      by_cases h0 : 0 ∈ segJs (nodeIndex lat nodes m nk t) (nodeIndex lat nodes m nk (t + 1))
      · have h00 : (nodeIndex lat nodes m nk t).toNat ≤ 0 := ((hmem 0).mp h0).1
        rcases Nat.eq_zero_or_pos t with rfl | htpos
        · rw [if_pos h0]
          funext a
          show nodes 0 a + (((0 : ℕ) : ℝ) - (nodeIndex lat nodes m nk 0 : ℝ))
              / ((nodeIndex lat nodes m nk (0 + 1) : ℝ) - (nodeIndex lat nodes m nk 0 : ℝ))
              * (nodes (0 + 1) a - nodes 0 a) = nodes 0 a
          rw [nodeIndex_zero]
          norm_num
        · exfalso
          have := nodeIndex_chain_lt lat nodes m nk hidx 0 t htpos (by omega)
          rw [nodeIndex_zero] at this
          omega
      · rw [if_neg h0]
        exact hkv0
    · rw [segWrite_snd, if_pos ((hmem _).mpr ⟨htoNatle, le_refl _⟩)]
      funext a
      show nodes t a + ((((nodeIndex lat nodes m nk (t + 1)).toNat : ℕ) : ℝ)
          - (nodeIndex lat nodes m nk t : ℝ))
          / ((nodeIndex lat nodes m nk (t + 1) : ℝ) - (nodeIndex lat nodes m nk t : ℝ))
          * (nodes (t + 1) a - nodes t a) = nodes (t + 1) a
      rw [hcastnf, div_self (ne_of_gt hden), one_mul]
      ring

lemma map_range_getElem? {A : Type} (f : ℕ → A) (n i : ℕ) (hi : i < n) :
    ((List.range n).map f)[i]? = some (f i) := by
  rw [List.getElem?_map, List.getElem?_range hi]
  rfl

/-- C8 (amended).  If, in addition to the stated validations, the output
indices assigned to the nodes by `node_index` are strictly increasing from
one node to the next (in particular no zero-length segment collapses onto a
single index), then `k_path` succeeds and returns a k-vector sequence of
length `totalPoints` whose first element is `nodes 0` and whose last element
is the last node, with a monotonically non-decreasing accumulated-distance
sequence. -/
theorem k_path_endpoints_monotone (lat : Matrix (Fin 3) (Fin 3) ℝ) (nodes : ℕ → Fin 3 → ℝ)
    (m nk : ℕ) (hm : 2 ≤ m) (hnk : m ≤ nk)
    (hidx : ∀ n, 1 ≤ n → n < m →
      nodeIndex lat nodes m nk (n - 1) < nodeIndex lat nodes m nk n) :
    ∃ kv kd kn, k_path lat nodes m nk = .ok (kv, kd, kn) ∧
      kv.length = nk ∧ kv.head? = some (nodes 0) ∧ kv.getLast? = some (nodes (m - 1)) ∧
      kd.Sorted (· ≤ ·) := by
  have hnk2 : 2 ≤ nk := le_trans hm hnk
  have hb2 : ¬ (3 ≤ m ∧ kNode lat nodes (m - 1) = 0) := by
    rintro ⟨h3m, hk0⟩
    have h1 : nodeIndex lat nodes m nk 1 = 0 := by
      rw [nodeIndex, if_neg (by omega), if_neg (by omega), hk0, div_zero, zero_mul,
        pyRound_zero]
    have hlt := nodeIndex_chain_lt lat nodes m nk hidx 0 1 Nat.zero_lt_one (by omega)
    rw [nodeIndex_zero, h1] at hlt
    exact lt_irrefl 0 hlt
  have hb3 : ¬ ∃ n ∈ Finset.range m, 1 ≤ n ∧
      nodeIndex lat nodes m nk n = nodeIndex lat nodes m nk (n - 1) := by
    rintro ⟨n, hmemn, h1n, heq⟩
    have hgot := hidx n h1n (Finset.mem_range.mp hmemn)
    rw [heq] at hgot
    exact lt_irrefl _ hgot
  obtain ⟨htop, hmono, hkv0, hkvtop⟩ :=
    pathState_invariant lat nodes m nk hm hidx (m - 1) (le_refl _)
  have hlastNat : (nodeIndex lat nodes m nk (m - 1)).toNat = nk - 1 := by
    rw [nodeIndex_last lat nodes m nk hm]
    omega
  rw [hlastNat] at hmono hkvtop
  refine ⟨(List.range nk).map (pathState lat nodes m nk).2,
    (List.range nk).map (pathState lat nodes m nk).1,
    (List.range m).map (kNode lat nodes), ?_, ?_, ?_, ?_, ?_⟩
  · rw [k_path, if_neg (by omega), if_neg hb2, if_neg hb3]
  · rw [List.length_map, List.length_range]
  · rw [List.head?_eq_getElem?, map_range_getElem? _ _ _ (by omega : 0 < nk),
      pathState_eq_partial, hkv0]
  · rw [List.getLast?_eq_getElem?, List.length_map, List.length_range,
      map_range_getElem? _ _ _ (by omega : nk - 1 < nk), pathState_eq_partial, hkvtop]
  · rw [List.Sorted, List.pairwise_iff_getElem]
    intro i j hi hj hij
    rw [List.length_map, List.length_range] at hi hj
    rw [List.getElem_map, List.getElem_map, List.getElem_range, List.getElem_range,
      pathState_eq_partial]
    exact hmono i j (le_of_lt hij) (by omega)

/-- Two-node path from the origin to `(1,0,0)`. -/
def cexNodes2 : ℕ → Fin 3 → ℝ := fun n => if n = 1 then ![1, 0, 0] else 0

/-- Witness for C8 (amended): the two-node path from the origin to `(1,0,0)`
with `totalPoints = 2` on the identity lattice. -/
theorem k_path_endpoints_monotone_witness :
    (2 ≤ 2 ∧ (2 : ℕ) ≤ 2 ∧
      (∀ n, 1 ≤ n → n < 2 →
        nodeIndex 1 cexNodes2 2 2 (n - 1) < nodeIndex 1 cexNodes2 2 2 n)) ∧
      (∃ kv kd kn, k_path 1 cexNodes2 2 2 = .ok (kv, kd, kn) ∧
        kv.length = 2 ∧ kv.head? = some (cexNodes2 0) ∧
        kv.getLast? = some (cexNodes2 (2 - 1)) ∧ kd.Sorted (· ≤ ·)) := by
  have hidx : ∀ n, 1 ≤ n → n < 2 →
      nodeIndex 1 cexNodes2 2 2 (n - 1) < nodeIndex 1 cexNodes2 2 2 n := by
    intro n h1 h2
    have hn : n = 1 := by omega
    subst hn
    rw [nodeIndex_zero, nodeIndex_last 1 cexNodes2 2 2 (le_refl 2)]
    norm_num
  exact ⟨⟨le_refl 2, le_refl 2, hidx⟩,
    k_path_endpoints_monotone 1 cexNodes2 2 2 (le_refl 2) (le_refl 2) hidx⟩

end PythTB
